import Mathlib

/-!
Shallow embedding of `src/utils/loss.py` (MindSpore loss functions for a
person re-identification model) over the real numbers, together with proofs
of the specified properties.

Tensors are modelled as functions out of `Fin`-index types; all floating
point arithmetic is modelled over `ℝ`.
-/

open Finset

noncomputable section

/-- Model of `P.composite.clip_by_value(x, lo, hi)`: clamp `x` into `[lo, hi]`. -/
def clip_by_value (x lo hi : ℝ) : ℝ := min (max x lo) hi

/-- Model of `P.matmul m1 m2` on 2-D tensors: ordinary matrix product (no transpose). -/
def matmul {m n p : ℕ} (m1 : Fin m → Fin n → ℝ) (m2 : Fin n → Fin p → ℝ) :
    Fin m → Fin p → ℝ :=
  fun i j => ∑ k, m1 i k * m2 k j

/-- Model of `nn.LogSoftmax(axis=1)` applied to a `(B, K)` matrix:
`log_probs[i][k] = x[i][k] - log (Σ_j exp x[i][j])`. -/
def LogSoftmax {B K : ℕ} (x : Fin B → Fin K → ℝ) : Fin B → Fin K → ℝ :=
  fun i k => x i k - Real.log (∑ j, Real.exp (x i j))

/-- Model of `CrossEntropyLoss.construct` (label-smoothed cross entropy):
one-hot encode the targets at depth `K`, blend with the uniform
distribution by `eps / num_classes`, and return
`(-targets * log_probs).mean(0).sum()`: the mean over axis 0 (the batch)
followed by the sum over the remaining class axis. -/
def CrossEntropyLoss.construct (num_classes : ℕ) (eps : ℝ) {B K : ℕ}
    (inputs : Fin B → Fin K → ℝ) (targets : Fin B → Fin K) : ℝ :=
  ∑ k, (∑ i, -((1 - eps) * (if targets i = k then 1 else 0) + eps / num_classes) *
    LogSoftmax inputs i k) / B

/-- Model of `MarginRankingLoss.construct`:
`temp3 = -(input1 - input2) * y + margin`, masked by `temp3 >= 0`
(the boolean mask is cast to `{0, 1}` by the multiplication), then reduced
by `ReduceMean` over all elements. -/
def MarginRankingLoss.construct (margin : ℝ) {n : ℕ}
    (input1 input2 y : Fin n → ℝ) : ℝ :=
  (∑ i, (-(input1 i - input2 i) * y i + margin) *
      (if 0 ≤ -(input1 i - input2 i) * y i + margin then 1 else 0)) / n

/-- The pairwise-distance matrix computed inline in `OriTripletLoss.construct`:
`dist[i][j] = sqrt (clip (‖x_i‖² + ‖x_j‖² - 2⟨x_i, x_j⟩) 1e-12 1e8)`,
where the inner product comes from `P.matmul(inputs, inputsᵀ)`. -/
def OriTripletLoss.dist {B D : ℕ} (inputs : Fin B → Fin D → ℝ) :
    Fin B → Fin B → ℝ :=
  fun i j => Real.sqrt (clip_by_value
    (((∑ k, inputs i k ^ 2) + (∑ k, inputs j k ^ 2)) +
      (-2) * matmul inputs (fun k l => inputs l k) i j)
    (1 / 10 ^ 12) (10 ^ 8))

/-- Model of `mask_pos` in `OriTripletLoss.construct`: the broadcast of `targets` to
`(B, B)` puts `targets[j]` at entry `(i, j)`, so the equality test against
its transpose yields `[targets[j] = targets[i]]`, cast to `{0, 1}`. -/
def OriTripletLoss.mask_pos {B : ℕ} (targets : Fin B → ℤ) :
    Fin B → Fin B → ℝ :=
  fun i j => if targets j = targets i then 1 else 0

/-- Model of `mask_neg` in `OriTripletLoss.construct`: `[targets[j] ≠ targets[i]]`
cast to `{0, 1}`. -/
def OriTripletLoss.mask_neg {B : ℕ} (targets : Fin B → ℤ) :
    Fin B → Fin B → ℝ :=
  fun i j => if targets j ≠ targets i then 1 else 0

/-- Model of `dist_ap` in `OriTripletLoss.construct`:
`ReduceMax` over axis 1 of `dist * mask_pos`, squeezed to a vector. -/
def OriTripletLoss.dist_ap {B D : ℕ} (inputs : Fin B → Fin D → ℝ)
    (targets : Fin B → ℤ) : Fin B → ℝ :=
  fun i => Finset.univ.sup' ⟨i, Finset.mem_univ i⟩
    (fun j => OriTripletLoss.dist inputs i j * OriTripletLoss.mask_pos targets i j)

/-- Model of `dist_an` in `OriTripletLoss.construct`:
`ReduceMin` over axis 1 of `rowmax(dist * mask_neg) * mask_pos + dist`. -/
def OriTripletLoss.dist_an {B D : ℕ} (inputs : Fin B → Fin D → ℝ)
    (targets : Fin B → ℤ) : Fin B → ℝ :=
  fun i => Finset.univ.inf' ⟨i, Finset.mem_univ i⟩
    (fun j =>
      (Finset.univ.sup' ⟨i, Finset.mem_univ i⟩
        (fun k => OriTripletLoss.dist inputs i k * OriTripletLoss.mask_neg targets i k))
        * OriTripletLoss.mask_pos targets i j + OriTripletLoss.dist inputs i j)

/-- Model of `OriTripletLoss.construct`: feed `(dist_an, dist_ap, y = 1)` into the
margin ranking loss; `loss[0]` extracts the scalar from the kept dims. -/
def OriTripletLoss.construct (margin : ℝ) {B D : ℕ}
    (inputs : Fin B → Fin D → ℝ) (targets : Fin B → ℤ) : ℝ :=
  MarginRankingLoss.construct margin
    (OriTripletLoss.dist_an inputs targets)
    (OriTripletLoss.dist_ap inputs targets)
    (fun _ => 1)

/-- Model of `addmm(dist, a, b, m1, m2)`: `y1 = a * dist`, `y2 = b * matmul(m1, m2)`,
returns `y1 + y2`.  The matrix product is taken against `m2` as passed. -/
def addmm {m n p : ℕ} (dist : Fin m → Fin p → ℝ) (a b : ℝ)
    (m1 : Fin m → Fin n → ℝ) (m2 : Fin n → Fin p → ℝ) : Fin m → Fin p → ℝ :=
  fun i j => a * dist i j + b * matmul m1 m2 i j

/-- Model of `pdist_ms(emb1, emb2)`: broadcast squared norms, `addmm` with the
transpose of `emb2` passed as the last argument, clip to `[1e-12, 1e7]`,
square root. -/
def pdist_ms {m n D : ℕ} (emb1 : Fin m → Fin D → ℝ) (emb2 : Fin n → Fin D → ℝ) :
    Fin m → Fin n → ℝ :=
  fun i j => Real.sqrt (clip_by_value
    (addmm (fun i j => (∑ k, emb1 i k ^ 2) + (∑ k, emb2 j k ^ 2)) 1 (-2)
      emb1 (fun k l => emb2 l k) i j)
    (1 / 10 ^ 12) (10 ^ 7))

/-- The value component of `P.ArgMaxWithValue(axis=1)` on one row: the
maximum entry (the axis must be nonempty for the op to be defined). -/
def rowmax {n : ℕ} [NeZero n] (v : Fin n → ℝ) : ℝ :=
  Finset.univ.sup' Finset.univ_nonempty v

/-- Model of `softmax_weights(dist, mask)`: subtract the row maximum `max_v` of
`dist * mask`, exponentiate, mask, and normalize by the masked sum plus
`1e-6`. -/
def softmax_weights {B n : ℕ} [NeZero n] (dist mask : Fin B → Fin n → ℝ) :
    Fin B → Fin n → ℝ :=
  fun i j =>
    Real.exp (dist i j - rowmax (fun k => dist i k * mask i k)) * mask i j /
      ((∑ k, Real.exp (dist i k - rowmax (fun l => dist i l * mask i l)) *
        mask i k) + 1 / 10 ^ 6)

/-! ## C2: cross-entropy reduction order -/

/-- C2: `CrossEntropyLoss.construct` with `num_classes = K` returns
`-mean_over_batch (sum_over_classes (target * log_softmax logits))` where
`target = (1 - eps) * onehot + eps / K`: the code's
`(-targets * log_probs).mean(0).sum()` equals the mean over the batch of
the per-sample sums over classes. -/
theorem crossEntropy_mean_sum_order {B K : ℕ} (eps : ℝ)
    (inputs : Fin B → Fin K → ℝ) (targets : Fin B → Fin K) :
    CrossEntropyLoss.construct K eps inputs targets =
      -(∑ i, ∑ k, ((1 - eps) * (if targets i = k then 1 else 0) + eps / K) *
          LogSoftmax inputs i k) / B := by
  unfold CrossEntropyLoss.construct
  rw [← Finset.sum_div, Finset.sum_comm]
  congr 1
  rw [← Finset.sum_neg_distrib]
  refine Finset.sum_congr rfl fun i _ => ?_
  rw [← Finset.sum_neg_distrib]
  exact Finset.sum_congr rfl fun k _ => neg_mul _ _

/-! ## C5: margin ranking loss is a mean of hinges -/

/-- C5: for `y` with ±1 entries, `MarginRankingLoss.construct` is the mean
over all elements of `max 0 (-(input1 - input2) * y + margin)`; the masked
product `temp3 * (temp3 >= 0)` is `max 0 temp3` elementwise. -/
theorem marginRanking_mean_hinge (margin : ℝ) {n : ℕ}
    (input1 input2 y : Fin n → ℝ) (hy : ∀ i, y i = 1 ∨ y i = -1) :
    MarginRankingLoss.construct margin input1 input2 y =
      (∑ i, max 0 (-(input1 i - input2 i) * y i + margin)) / n := by
  unfold MarginRankingLoss.construct
  congr 1
  refine Finset.sum_congr rfl fun i _ => ?_
  rcases le_or_lt 0 (-(input1 i - input2 i) * y i + margin) with h | h
  · rw [if_pos h, mul_one, max_eq_right h]
  · rw [if_neg (not_le.mpr h), mul_zero, max_eq_left h.le]

/-- Witness for C5 at `margin = 0`, `input1 = ![2]`, `input2 = ![1]`,
`y = ![1]`. -/
theorem marginRanking_mean_hinge_witness :
    MarginRankingLoss.construct 0 ![(2:ℝ)] ![1] ![1] =
      (∑ i, max 0 (-((![(2:ℝ)]) i - (![(1:ℝ)]) i) * (![(1:ℝ)]) i + 0)) / ((1:ℕ):ℝ) :=
  marginRanking_mean_hinge 0 ![2] ![1] ![1]
    (fun i => Or.inl (by simp [Matrix.cons_val_fin_one]))

/-! ## C3: what addmm multiplies -/

/-- C3 counterexample: `addmm` does not transpose its last argument:
at `dist = 0`, `a = 0`, `b = 1`, `m1 = I₂` and `m2 = ![![0,1],![0,0]]`,
entry `(0,1)` of `addmm dist a b m1 m2` is `1`, while the claimed
`a * dist + b * (m1 @ m2ᵗ)` has `0` there. -/
theorem addmm_no_transpose_counterexample :
    ¬ (addmm (fun _ _ => (0:ℝ)) 0 1 (fun i j => if i = j then 1 else 0)
        ![![0, 1], ![0, 0]] =
      fun i j => 0 * (0:ℝ) +
        1 * ∑ k, (if i = k then (1:ℝ) else 0) * (![![0, 1], ![0, 0]]) j k) := by
  intro h
  have h01 := congrFun (congrFun h 0) 1
  simp [addmm, matmul, Fin.sum_univ_two] at h01

/-- C3 (amended): `addmm(dist, a, b, m1, m2)` returns `a * dist + b * (m1 @ m2)`
with `m2` as passed; the product against a transpose arises only at the
call site, where `pdist_ms` passes `emb2.T`: with last argument `m2ᵗ` the
result is `a * dist + b * (m1 @ m2ᵗ)`. -/
theorem addmm_spec {m n p : ℕ} (dist : Fin m → Fin p → ℝ) (a b : ℝ)
    (m1 : Fin m → Fin n → ℝ) (m2 : Fin p → Fin n → ℝ) (i : Fin m) (j : Fin p) :
    addmm dist a b m1 (fun k l => m2 l k) i j =
      a * dist i j + b * ∑ k, m1 i k * m2 j k := by
  simp [addmm, matmul]

/-! ## C6: symmetry and clipped-zero diagonal of pdist_ms -/

/-- The pre-clip value inside `pdist_ms x x` at two equal rows is zero. -/
lemma pdist_inner_self {B D : ℕ} (x : Fin B → Fin D → ℝ) {a b : Fin B}
    (hab : x a = x b) :
    (1:ℝ) * ((∑ k, x a k ^ 2) + (∑ k, x b k ^ 2)) +
      (-2) * ∑ k, x a k * x b k = 0 := by
  simp only [hab, pow_two]
  ring

/-- C6: `pdist_ms x x` is symmetric, its diagonal entries are
`sqrt (1e-12)` (the square root of the clipping floor), and any entry at
two identical rows of `x` likewise equals `sqrt (1e-12)`. -/
theorem pdist_symm_diag {B D : ℕ} (x : Fin B → Fin D → ℝ) (i j : Fin B) :
    pdist_ms x x i j = pdist_ms x x j i ∧
    pdist_ms x x i i = Real.sqrt (1 / 10 ^ 12) ∧
    (x i = x j → pdist_ms x x i j = Real.sqrt (1 / 10 ^ 12)) := by
  have key : ∀ a b : Fin B, x a = x b →
      pdist_ms x x a b = Real.sqrt (1 / 10 ^ 12) := by
    intro a b hab
    unfold pdist_ms addmm matmul clip_by_value
    rw [pdist_inner_self x hab]
    rw [max_eq_right (by norm_num), min_eq_left (by norm_num)]
  refine ⟨?_, key i i rfl, key i j⟩
  unfold pdist_ms addmm matmul clip_by_value
  dsimp only
  have hc : (∑ k, x i k * x j k) = ∑ k, x j k * x i k :=
    Finset.sum_congr rfl fun k _ => mul_comm _ _
  rw [hc, add_comm (∑ k, x i k ^ 2) (∑ k, x j k ^ 2)]

/-- Witness for C6 at `x = ![![1], ![1]]`, `i = 0`, `j = 1`: two identical
rows give the clipped-floor distance. -/
theorem pdist_symm_diag_witness :
    pdist_ms ![![(1:ℝ)], ![1]] ![![(1:ℝ)], ![1]] 0 1 = Real.sqrt (1 / 10 ^ 12) :=
  (pdist_symm_diag ![![(1:ℝ)], ![1]] 0 1).2.2 (by simp)

/-! ## C9 and C10: masked softmax weights -/

/-- The normalizing denominator of `softmax_weights` is positive for a
0/1 mask. -/
lemma softmax_denom_pos {B n : ℕ} (dist mask : Fin B → Fin n → ℝ)
    (hmask : ∀ a b, mask a b = 0 ∨ mask a b = 1) (i : Fin B) (m : ℝ) :
    0 < (∑ k, Real.exp (dist i k - m) * mask i k) + 1 / 10 ^ 6 := by
  have hsum : 0 ≤ ∑ k, Real.exp (dist i k - m) * mask i k := by
    refine Finset.sum_nonneg fun k _ => ?_
    rcases hmask i k with h | h <;> rw [h] <;> positivity
  positivity

/-- C9: within a row, `softmax_weights` assigns a weight monotone in the
distance: for a 0/1 mask with `mask i j = mask i k = 1` and
`dist i k ≤ dist i j`, the weight at `k` is at most the weight at `j`. -/
theorem softmax_weights_monotone {B n : ℕ} [NeZero n]
    (dist mask : Fin B → Fin n → ℝ)
    (hmask : ∀ a b, mask a b = 0 ∨ mask a b = 1) (i : Fin B) (j k : Fin n)
    (hj : mask i j = 1) (hk : mask i k = 1) (hjk : dist i k ≤ dist i j) :
    softmax_weights dist mask i k ≤ softmax_weights dist mask i j := by
  unfold softmax_weights
  rw [hj, hk, mul_one, mul_one,
    div_le_div_right (softmax_denom_pos dist mask hmask i _)]
  exact Real.exp_le_exp.mpr (by linarith)

/-- Witness for C9 at `dist = ![![1, 0]]`, `mask = ![![1, 1]]`, `i = 0`,
`j = 0`, `k = 1`. -/
theorem softmax_weights_monotone_witness :
    softmax_weights ![![(1:ℝ), 0]] ![![(1:ℝ), 1]] 0 1 ≤
      softmax_weights ![![(1:ℝ), 0]] ![![(1:ℝ), 1]] 0 0 :=
  softmax_weights_monotone ![![(1:ℝ), 0]] ![![(1:ℝ), 1]]
    (by intro a b; fin_cases a <;> fin_cases b <;> simp) 0 0 1
    (by simp) (by simp) (by norm_num)

/-- C10: for a 0/1 mask whose rows each contain a 1, `softmax_weights` is
zero wherever the mask is zero, nonnegative everywhere, and each row sums
to strictly less than 1 (the denominator exceeds the masked sum by 1e-6). -/
theorem softmax_weights_bounds {B n : ℕ} [NeZero n]
    (dist mask : Fin B → Fin n → ℝ)
    (hmask : ∀ a b, mask a b = 0 ∨ mask a b = 1)
    (hrow : ∀ a, ∃ b, mask a b = 1) (i : Fin B) (j : Fin n) :
    (mask i j = 0 → softmax_weights dist mask i j = 0) ∧
    0 ≤ softmax_weights dist mask i j ∧
    (∑ l, softmax_weights dist mask i l) < 1 := by
  refine ⟨fun h0 => ?_, ?_, ?_⟩
  · unfold softmax_weights
    rw [h0, mul_zero, zero_div]
  · unfold softmax_weights
    apply div_nonneg _ (softmax_denom_pos dist mask hmask i _).le
    rcases hmask i j with h | h <;> rw [h] <;> positivity
  · unfold softmax_weights
    rw [← Finset.sum_div, div_lt_one (softmax_denom_pos dist mask hmask i _)]
    linarith

/-- Witness for C10 at `dist = ![![1, 0]]`, `mask = ![![1, 0]]`, `i = 0`,
`j = 1`. -/
theorem softmax_weights_bounds_witness :
    ((![![(1:ℝ), 0]]) 0 1 = 0 →
      softmax_weights ![![(1:ℝ), 0]] ![![(1:ℝ), 0]] 0 1 = 0) ∧
    0 ≤ softmax_weights ![![(1:ℝ), 0]] ![![(1:ℝ), 0]] 0 1 ∧
    (∑ l, softmax_weights ![![(1:ℝ), 0]] ![![(1:ℝ), 0]] 0 l) < 1 :=
  softmax_weights_bounds ![![(1:ℝ), 0]] ![![(1:ℝ), 0]]
    (by intro a b; fin_cases a <;> fin_cases b <;> simp)
    (fun a => ⟨0, by simp⟩) 0 1

/-! ## C1: hard positive/negative mining in OriTripletLoss -/

/-- Every entry of the inline triplet distance matrix is nonnegative. -/
lemma oriDist_nonneg {B D : ℕ} (inputs : Fin B → Fin D → ℝ) (i j : Fin B) :
    0 ≤ OriTripletLoss.dist inputs i j :=
  Real.sqrt_nonneg _

/-- C1: under the hypothesis that every anchor has at least one
different-label sample (same-label holds via the anchor itself),
`dist_ap i` is the maximum of `dist i j` over same-label `j`, and
`dist_an i` — computed as `min_j (rowmax (dist * mask_neg) * mask_pos + dist)`
— is the minimum of `dist i j` over different-label `j`. -/
theorem oriTriplet_hard_mining {B D : ℕ} (inputs : Fin B → Fin D → ℝ)
    (targets : Fin B → ℤ)
    (hneg : ∀ a : Fin B, ((Finset.univ : Finset (Fin B)).filter
      (fun j => targets j ≠ targets a)).Nonempty) (i : Fin B) :
    OriTripletLoss.dist_ap inputs targets i =
      ((Finset.univ : Finset (Fin B)).filter
        (fun j => targets j = targets i)).sup'
        ⟨i, Finset.mem_filter.mpr ⟨Finset.mem_univ i, rfl⟩⟩
        (fun j => OriTripletLoss.dist inputs i j) ∧
    OriTripletLoss.dist_an inputs targets i =
      ((Finset.univ : Finset (Fin B)).filter
        (fun j => targets j ≠ targets i)).inf' (hneg i)
        (fun j => OriTripletLoss.dist inputs i j) := by
  have hi : i ∈ (Finset.univ : Finset (Fin B)).filter
      (fun j => targets j = targets i) :=
    Finset.mem_filter.mpr ⟨Finset.mem_univ i, rfl⟩
  constructor
  · unfold OriTripletLoss.dist_ap OriTripletLoss.mask_pos
    apply le_antisymm
    · apply Finset.sup'_le
      intro j _
      by_cases h : targets j = targets i
      · rw [if_pos h, mul_one]
        exact Finset.le_sup' _ (Finset.mem_filter.mpr ⟨Finset.mem_univ j, h⟩)
      · rw [if_neg h, mul_zero]
        exact le_trans (oriDist_nonneg inputs i i) (Finset.le_sup' _ hi)
    · apply Finset.sup'_le
      intro j hj
      obtain ⟨-, hji⟩ := Finset.mem_filter.mp hj
      calc OriTripletLoss.dist inputs i j
          = OriTripletLoss.dist inputs i j * (if targets j = targets i then 1 else 0) := by
            rw [if_pos hji, mul_one]
        _ ≤ _ := Finset.le_sup'
            (fun k => OriTripletLoss.dist inputs i k *
              (if targets k = targets i then 1 else 0)) (Finset.mem_univ j)
  · unfold OriTripletLoss.dist_an OriTripletLoss.mask_pos OriTripletLoss.mask_neg
    obtain ⟨j₀, hj₀mem⟩ := hneg i
    obtain ⟨-, hj₀⟩ := Finset.mem_filter.mp hj₀mem
    apply le_antisymm
    · apply Finset.le_inf'
      intro b hb
      obtain ⟨-, hbi⟩ := Finset.mem_filter.mp hb
      refine le_trans (Finset.inf'_le _ (Finset.mem_univ b)) ?_
      rw [if_neg hbi, mul_zero, zero_add]
    · apply Finset.le_inf'
      intro j _
      by_cases h : targets j = targets i
      · rw [if_pos h, mul_one]
        have h1 : ((Finset.univ : Finset (Fin B)).filter
            (fun l => targets l ≠ targets i)).inf' (hneg i)
              (fun l => OriTripletLoss.dist inputs i l) ≤
            OriTripletLoss.dist inputs i j₀ :=
          Finset.inf'_le _ hj₀mem
        have h2 : OriTripletLoss.dist inputs i j₀ ≤
            Finset.univ.sup' ⟨i, Finset.mem_univ i⟩
              (fun k => OriTripletLoss.dist inputs i k *
                (if targets k ≠ targets i then 1 else 0)) := by
          calc OriTripletLoss.dist inputs i j₀
              = OriTripletLoss.dist inputs i j₀ *
                  (if targets j₀ ≠ targets i then 1 else 0) := by
                rw [if_pos hj₀, mul_one]
            _ ≤ _ := Finset.le_sup'
                (fun k => OriTripletLoss.dist inputs i k *
                  (if targets k ≠ targets i then 1 else 0)) (Finset.mem_univ j₀)
        have h3 := oriDist_nonneg inputs i j
        linarith
      · rw [if_neg h, mul_zero, zero_add]
        exact Finset.inf'_le _ (Finset.mem_filter.mpr ⟨Finset.mem_univ j, h⟩)

/-- Witness for C1 at `inputs = ![![0], ![1]]`, `targets = ![0, 1]`,
anchor `i = 0`. -/
theorem oriTriplet_hard_mining_witness :
    OriTripletLoss.dist_ap ![![(0:ℝ)], ![1]] ![0, 1] 0 =
      ((Finset.univ : Finset (Fin 2)).filter
        (fun j => (![0, 1] : Fin 2 → ℤ) j = (![0, 1] : Fin 2 → ℤ) 0)).sup'
        ⟨0, Finset.mem_filter.mpr ⟨Finset.mem_univ 0, rfl⟩⟩
        (fun j => OriTripletLoss.dist ![![(0:ℝ)], ![1]] 0 j) :=
  (oriTriplet_hard_mining ![![(0:ℝ)], ![1]] ![0, 1] (by decide) 0).1

/-! ## C8: invariance under label-preserving permutation of the batch -/

/-- A `sup'` over all of `Fin B` is unchanged by precomposing with a
permutation. -/
lemma sup'_comp_perm {B : ℕ} (π : Equiv.Perm (Fin B)) (f : Fin B → ℝ)
    (h h' : (Finset.univ : Finset (Fin B)).Nonempty) :
    Finset.univ.sup' h (fun j => f (π j)) = Finset.univ.sup' h' f := by
  apply le_antisymm
  · exact Finset.sup'_le _ _ fun j _ => Finset.le_sup' f (Finset.mem_univ (π j))
  · refine Finset.sup'_le _ _ fun j _ => ?_
    have hle := Finset.le_sup' (fun l => f (π l)) (Finset.mem_univ (π.symm j))
    simpa using hle

/-- An `inf'` over all of `Fin B` is unchanged by precomposing with a
permutation. -/
lemma inf'_comp_perm {B : ℕ} (π : Equiv.Perm (Fin B)) (f : Fin B → ℝ)
    (h h' : (Finset.univ : Finset (Fin B)).Nonempty) :
    Finset.univ.inf' h (fun j => f (π j)) = Finset.univ.inf' h' f := by
  apply le_antisymm
  · refine Finset.le_inf' _ _ fun j _ => ?_
    have hle := Finset.inf'_le (fun l => f (π l)) (Finset.mem_univ (π.symm j))
    simpa using hle
  · exact Finset.le_inf' _ _ fun j _ => Finset.inf'_le f (Finset.mem_univ (π j))

/-- Row-permuting the inputs permutes `dist_ap` the same way, when the
permutation preserves labels. -/
lemma dist_ap_comp_perm {B D : ℕ} (inputs : Fin B → Fin D → ℝ)
    (targets : Fin B → ℤ) (π : Equiv.Perm (Fin B))
    (hπ : ∀ a, targets (π a) = targets a) (i : Fin B) :
    OriTripletLoss.dist_ap (fun a => inputs (π a)) targets i =
      OriTripletLoss.dist_ap inputs targets (π i) := by
  unfold OriTripletLoss.dist_ap
  have hfun : (fun j => OriTripletLoss.dist (fun a => inputs (π a)) i j *
      OriTripletLoss.mask_pos targets i j) =
      fun j => (fun l => OriTripletLoss.dist inputs (π i) l *
        OriTripletLoss.mask_pos targets (π i) l) (π j) := by
    funext j
    show OriTripletLoss.dist inputs (π i) (π j) *
        OriTripletLoss.mask_pos targets i j =
      OriTripletLoss.dist inputs (π i) (π j) *
        OriTripletLoss.mask_pos targets (π i) (π j)
    unfold OriTripletLoss.mask_pos
    rw [hπ i, hπ j]
  rw [hfun]
  exact sup'_comp_perm π
    (fun l => OriTripletLoss.dist inputs (π i) l *
      OriTripletLoss.mask_pos targets (π i) l)
    ⟨i, Finset.mem_univ i⟩ ⟨π i, Finset.mem_univ (π i)⟩

/-- Row-permuting the inputs permutes `dist_an` the same way, when the
permutation preserves labels. -/
lemma dist_an_comp_perm {B D : ℕ} (inputs : Fin B → Fin D → ℝ)
    (targets : Fin B → ℤ) (π : Equiv.Perm (Fin B))
    (hπ : ∀ a, targets (π a) = targets a) (i : Fin B) :
    OriTripletLoss.dist_an (fun a => inputs (π a)) targets i =
      OriTripletLoss.dist_an inputs targets (π i) := by
  unfold OriTripletLoss.dist_an
  have hM : Finset.univ.sup' ⟨i, Finset.mem_univ i⟩
      (fun k => OriTripletLoss.dist (fun a => inputs (π a)) i k *
        OriTripletLoss.mask_neg targets i k) =
      Finset.univ.sup' ⟨π i, Finset.mem_univ (π i)⟩
      (fun k => OriTripletLoss.dist inputs (π i) k *
        OriTripletLoss.mask_neg targets (π i) k) := by
    have hMfun : (fun k => OriTripletLoss.dist (fun a => inputs (π a)) i k *
        OriTripletLoss.mask_neg targets i k) =
        fun k => (fun l => OriTripletLoss.dist inputs (π i) l *
          OriTripletLoss.mask_neg targets (π i) l) (π k) := by
      funext k
      show OriTripletLoss.dist inputs (π i) (π k) *
          OriTripletLoss.mask_neg targets i k =
        OriTripletLoss.dist inputs (π i) (π k) *
          OriTripletLoss.mask_neg targets (π i) (π k)
      unfold OriTripletLoss.mask_neg
      rw [hπ i, hπ k]
    rw [hMfun]
    exact sup'_comp_perm π
      (fun l => OriTripletLoss.dist inputs (π i) l *
        OriTripletLoss.mask_neg targets (π i) l)
      ⟨i, Finset.mem_univ i⟩ ⟨π i, Finset.mem_univ (π i)⟩
  have hfun : (fun j => (Finset.univ.sup' ⟨i, Finset.mem_univ i⟩
      (fun k => OriTripletLoss.dist (fun a => inputs (π a)) i k *
        OriTripletLoss.mask_neg targets i k)) *
      OriTripletLoss.mask_pos targets i j +
      OriTripletLoss.dist (fun a => inputs (π a)) i j) =
      fun j => (fun l => (Finset.univ.sup' ⟨π i, Finset.mem_univ (π i)⟩
        (fun k => OriTripletLoss.dist inputs (π i) k *
          OriTripletLoss.mask_neg targets (π i) k)) *
        OriTripletLoss.mask_pos targets (π i) l +
        OriTripletLoss.dist inputs (π i) l) (π j) := by
    funext j
    show (Finset.univ.sup' ⟨i, Finset.mem_univ i⟩
        (fun k => OriTripletLoss.dist (fun a => inputs (π a)) i k *
          OriTripletLoss.mask_neg targets i k)) *
        OriTripletLoss.mask_pos targets i j +
        OriTripletLoss.dist inputs (π i) (π j) =
      (Finset.univ.sup' ⟨π i, Finset.mem_univ (π i)⟩
        (fun k => OriTripletLoss.dist inputs (π i) k *
          OriTripletLoss.mask_neg targets (π i) k)) *
        OriTripletLoss.mask_pos targets (π i) (π j) +
        OriTripletLoss.dist inputs (π i) (π j)
    rw [hM]
    unfold OriTripletLoss.mask_pos
    rw [hπ i, hπ j]
  rw [hfun]
  exact inf'_comp_perm π
    (fun l => (Finset.univ.sup' ⟨π i, Finset.mem_univ (π i)⟩
        (fun k => OriTripletLoss.dist inputs (π i) k *
          OriTripletLoss.mask_neg targets (π i) k)) *
        OriTripletLoss.mask_pos targets (π i) l +
        OriTripletLoss.dist inputs (π i) l)
    ⟨i, Finset.mem_univ i⟩ ⟨π i, Finset.mem_univ (π i)⟩

/-- C8: `OriTripletLoss.construct` is invariant under permuting the rows of
`inputs` by any permutation that preserves labels position-wise. -/
theorem oriTriplet_perm_invariant (margin : ℝ) {B D : ℕ}
    (inputs : Fin B → Fin D → ℝ) (targets : Fin B → ℤ)
    (π : Equiv.Perm (Fin B)) (hπ : ∀ a, targets (π a) = targets a) :
    OriTripletLoss.construct margin (fun a => inputs (π a)) targets =
      OriTripletLoss.construct margin inputs targets := by
  unfold OriTripletLoss.construct MarginRankingLoss.construct
  congr 1
  have key : ∀ i, (-(OriTripletLoss.dist_an (fun a => inputs (π a)) targets i -
        OriTripletLoss.dist_ap (fun a => inputs (π a)) targets i) *
        (fun _ : Fin B => (1:ℝ)) i + margin) *
      (if 0 ≤ -(OriTripletLoss.dist_an (fun a => inputs (π a)) targets i -
        OriTripletLoss.dist_ap (fun a => inputs (π a)) targets i) *
        (fun _ : Fin B => (1:ℝ)) i + margin then (1:ℝ) else 0) =
      (fun b => (-(OriTripletLoss.dist_an inputs targets b -
          OriTripletLoss.dist_ap inputs targets b) *
          (fun _ : Fin B => (1:ℝ)) b + margin) *
        (if 0 ≤ -(OriTripletLoss.dist_an inputs targets b -
          OriTripletLoss.dist_ap inputs targets b) *
          (fun _ : Fin B => (1:ℝ)) b + margin then (1:ℝ) else 0)) (π i) := by
    intro i
    dsimp only
    rw [dist_an_comp_perm inputs targets π hπ i,
      dist_ap_comp_perm inputs targets π hπ i]
  rw [Finset.sum_congr rfl fun i _ => key i]
  exact Fintype.sum_equiv π _ _ fun i => rfl

/-- Witness for C8: swapping the two same-label rows of a 4-sample batch
leaves the loss unchanged. -/
theorem oriTriplet_perm_invariant_witness :
    OriTripletLoss.construct (3/10)
      (fun a => (![![(0:ℝ)], ![1], ![2], ![5]]) (Equiv.swap 0 1 a))
      ![0, 0, 1, 1] =
    OriTripletLoss.construct (3/10) ![![(0:ℝ)], ![1], ![2], ![5]]
      ![0, 0, 1, 1] :=
  oriTriplet_perm_invariant (3/10) ![![(0:ℝ)], ![1], ![2], ![5]] ![0, 0, 1, 1]
    (Equiv.swap 0 1) (by decide)

/-! ## C4: inline distance versus pdist_ms (clip ceilings differ) -/

/-- C4 counterexample: the inline computation clips at `1e8` while
`pdist_ms` clips at `1e7`, so at `inputs = ![![0], ![10000]]` (squared
distance `1e8`) the two matrices differ at entry `(0, 1)`. -/
theorem ori_pdist_clip_counterexample :
    OriTripletLoss.dist ![![(0:ℝ)], ![10000]] 0 1 ≠
      pdist_ms ![![(0:ℝ)], ![10000]] ![![(0:ℝ)], ![10000]] 0 1 := by
  have hL : OriTripletLoss.dist ![![(0:ℝ)], ![10000]] 0 1 =
      Real.sqrt (10 ^ 8) := by
    unfold OriTripletLoss.dist matmul clip_by_value
    norm_num [Fin.sum_univ_one, max_def, min_def]
  have hR : pdist_ms ![![(0:ℝ)], ![10000]] ![![(0:ℝ)], ![10000]] 0 1 =
      Real.sqrt (10 ^ 7) := by
    unfold pdist_ms addmm matmul clip_by_value
    norm_num [Fin.sum_univ_one, max_def, min_def]
  rw [hL, hR]
  intro h
  have h78 := (Real.sqrt_inj (by norm_num) (by norm_num)).mp h
  norm_num at h78

/-- C4 (amended): the inline pairwise distance in `OriTripletLoss.construct`
agrees with `pdist_ms inputs inputs` at every entry whose pre-clip squared
distance is at most `1e7`; the two differ only through their clip ceilings
(`1e8` inline versus `1e7` in `pdist_ms`). -/
theorem ori_dist_eq_pdist_of_small {B D : ℕ} (inputs : Fin B → Fin D → ℝ)
    (i j : Fin B)
    (h : ((∑ k, inputs i k ^ 2) + (∑ k, inputs j k ^ 2)) +
        (-2) * ∑ k, inputs i k * inputs j k ≤ 10 ^ 7) :
    OriTripletLoss.dist inputs i j = pdist_ms inputs inputs i j := by
  unfold OriTripletLoss.dist pdist_ms addmm matmul clip_by_value
  dsimp only
  rw [one_mul]
  congr 1
  have hm : max (((∑ k, inputs i k ^ 2) + (∑ k, inputs j k ^ 2)) +
      (-2) * ∑ k, inputs i k * inputs j k) (1 / 10 ^ 12) ≤ (10:ℝ) ^ 7 :=
    max_le h (by norm_num)
  rw [min_eq_left (le_trans hm (by norm_num)), min_eq_left hm]

/-- Witness for C4 (amended) at `inputs = ![![0], ![1]]`, entry `(0, 1)`. -/
theorem ori_dist_eq_pdist_witness :
    OriTripletLoss.dist ![![(0:ℝ)], ![1]] 0 1 =
      pdist_ms ![![(0:ℝ)], ![1]] ![![(0:ℝ)], ![1]] 0 1 :=
  ori_dist_eq_pdist_of_small ![![(0:ℝ)], ![1]] 0 1
    (by norm_num [Fin.sum_univ_one])

/-! ## C7: effect of label smoothing on the loss -/

/-- One batch row of the smoothed cross entropy, with the one-hot sum
evaluated. -/
lemma ce_row (eps : ℝ) {K : ℕ} (v : Fin K → ℝ) (y : Fin K) (c : ℝ) :
    ∑ k, -((1 - eps) * (if y = k then 1 else 0) + eps / K) * (v k - c) =
      -(1 - eps) * (v y - c) - eps / K * ∑ k, (v k - c) := by
  have hsplit : ∀ k, -((1 - eps) * (if y = k then 1 else 0) + eps / K) *
      (v k - c) =
      (if y = k then -(1 - eps) * (v k - c) else 0) + -(eps / K) * (v k - c) := by
    intro k
    by_cases h : y = k
    · rw [if_pos h, if_pos h]; ring
    · rw [if_neg h, if_neg h]; ring
  rw [Finset.sum_congr rfl fun k _ => hsplit k, Finset.sum_add_distrib,
    Finset.sum_ite_eq Finset.univ y (fun k => -(1 - eps) * (v k - c)),
    if_pos (Finset.mem_univ y), ← Finset.mul_sum]
  ring

/-- The smoothed cross entropy as a single batch sum. -/
lemma crossEntropy_eq_sum {B K : ℕ} (eps : ℝ)
    (x : Fin B → Fin K → ℝ) (y : Fin B → Fin K) :
    CrossEntropyLoss.construct K eps x y =
      (∑ b, (-(1 - eps) * (x b (y b) - Real.log (∑ j, Real.exp (x b j))) -
        eps / K * ∑ k, (x b k - Real.log (∑ j, Real.exp (x b j))))) / B := by
  unfold CrossEntropyLoss.construct LogSoftmax
  rw [← Finset.sum_div, Finset.sum_comm]
  congr 1
  exact Finset.sum_congr rfl fun b _ => ce_row eps (x b) (y b) _

/-- Difference of one batch row of the loss at smoothing `eps` versus `0`:
the log-partition terms cancel. -/
lemma smoothing_row_diff (eps : ℝ) {K : ℕ} (hK : K ≠ 0) (v : Fin K → ℝ)
    (y : Fin K) (c : ℝ) :
    (-(1 - eps) * (v y - c) - eps / K * ∑ k, (v k - c)) -
      (-(1 - 0) * (v y - c) - 0 / K * ∑ k, (v k - c)) =
    eps * (v y - (∑ k, v k) / K) := by
  have hKR : (K:ℝ) ≠ 0 := Nat.cast_ne_zero.mpr hK
  rw [Finset.sum_sub_distrib, Finset.sum_const, Finset.card_univ,
    Fintype.card_fin, nsmul_eq_mul]
  field_simp
  ring

/-- If `v y` dominates every entry, it dominates the average. -/
lemma avg_le_of_forall_le {K : ℕ} (v : Fin K → ℝ) (y : Fin K)
    (hcor : ∀ k, v k ≤ v y) : (∑ k, v k) / K ≤ v y := by
  have hK : 0 < K := Fin.pos y
  have h1 : ∑ k, v k ≤ (K:ℝ) * v y := by
    calc ∑ k, v k ≤ ∑ _k : Fin K, v y := Finset.sum_le_sum fun k _ => hcor k
      _ = (K:ℝ) * v y := by
        rw [Finset.sum_const, Finset.card_univ, Fintype.card_fin, nsmul_eq_mul]
  rw [div_le_iff (by exact_mod_cast hK)]
  linarith

/-- If `v y` dominates every entry and strictly dominates one, it strictly
dominates the average. -/
lemma avg_lt_of_exists_lt {K : ℕ} (v : Fin K → ℝ) (y : Fin K)
    (hcor : ∀ k, v k ≤ v y) (hex : ∃ k, v k < v y) :
    (∑ k, v k) / K < v y := by
  obtain ⟨k₀, hk₀⟩ := hex
  have hK : 0 < K := Fin.pos y
  have h1 : ∑ k, v k < (K:ℝ) * v y := by
    calc ∑ k, v k < ∑ _k : Fin K, v y :=
        Finset.sum_lt_sum (fun k _ => hcor k) ⟨k₀, Finset.mem_univ k₀, hk₀⟩
      _ = (K:ℝ) * v y := by
        rw [Finset.sum_const, Finset.card_univ, Fintype.card_fin, nsmul_eq_mul]
  rw [div_lt_iff (by exact_mod_cast hK)]
  linarith

/-- C7 counterexample: with tied logits `![![0, 0]]` and label `0`, the
example is correctly classified (the true class attains the largest
log-probability), `eps = 1/2 > 0`, yet the smoothed loss equals — is not
strictly larger than — the unsmoothed loss. -/
theorem label_smoothing_not_strict_counterexample :
    (0:ℝ) < 1/2 ∧
    (∀ b k, (![![(0:ℝ), 0]]) b k ≤
      (![![(0:ℝ), 0]]) b ((![0] : Fin 1 → Fin 2) b)) ∧
    ¬ (CrossEntropyLoss.construct 2 0 ![![(0:ℝ), 0]] ![0] <
        CrossEntropyLoss.construct 2 (1/2) ![![(0:ℝ), 0]] ![0]) := by
  refine ⟨by norm_num, ?_, ?_⟩
  · intro b k
    fin_cases b <;> fin_cases k <;> simp
  · have he : CrossEntropyLoss.construct 2 (1/2) ![![(0:ℝ), 0]] ![0] =
        CrossEntropyLoss.construct 2 0 ![![(0:ℝ), 0]] ![0] := by
      unfold CrossEntropyLoss.construct LogSoftmax
      simp [Fin.sum_univ_two, Fin.sum_univ_one]
      ring
    rw [he]
    exact lt_irrefl _

/-- C7 (amended): for `eps > 0` and a batch in which every example is
correctly classified and at least one example has a class with strictly
smaller logit than its true class, the label-smoothed loss is strictly
larger than the unsmoothed loss. -/
theorem label_smoothing_increases_loss {B K : ℕ} (eps : ℝ) (heps : 0 < eps)
    (inputs : Fin B → Fin K → ℝ) (targets : Fin B → Fin K)
    (hcorrect : ∀ b k, inputs b k ≤ inputs b (targets b))
    (hstrict : ∃ b k, inputs b k < inputs b (targets b)) :
    CrossEntropyLoss.construct K 0 inputs targets <
      CrossEntropyLoss.construct K eps inputs targets := by
  obtain ⟨b₀, k₀, hb₀⟩ := hstrict
  have hKn : 0 < K := Fin.pos k₀
  have hBR : (0:ℝ) < B := by exact_mod_cast Fin.pos b₀
  rw [crossEntropy_eq_sum 0 inputs targets, crossEntropy_eq_sum eps inputs targets,
    div_lt_div_iff_of_pos_right hBR]
  apply Finset.sum_lt_sum
  · intro b _
    have hd := smoothing_row_diff eps hKn.ne' (inputs b) (targets b)
      (Real.log (∑ j, Real.exp (inputs b j)))
    have hle := avg_le_of_forall_le (inputs b) (targets b) (hcorrect b)
    nlinarith [mul_nonneg heps.le (sub_nonneg.mpr hle)]
  · refine ⟨b₀, Finset.mem_univ b₀, ?_⟩
    have hd := smoothing_row_diff eps hKn.ne' (inputs b₀) (targets b₀)
      (Real.log (∑ j, Real.exp (inputs b₀ j)))
    have hlt := avg_lt_of_exists_lt (inputs b₀) (targets b₀) (hcorrect b₀)
      ⟨k₀, hb₀⟩
    nlinarith [mul_pos heps (sub_pos.mpr hlt)]

/-- Witness for C7 (amended) at `eps = 1/2`, logits `![![1, 0]]`,
label `0`. -/
theorem label_smoothing_increases_loss_witness :
    CrossEntropyLoss.construct 2 0 ![![(1:ℝ), 0]] ![0] <
      CrossEntropyLoss.construct 2 (1/2) ![![(1:ℝ), 0]] ![0] :=
  label_smoothing_increases_loss (1/2) (by norm_num) ![![(1:ℝ), 0]] ![0]
    (by intro b k; fin_cases b <;> fin_cases k <;> norm_num)
    ⟨0, 1, by norm_num⟩
